import Mathlib

/-!
Verification of the core of `scripts/smem_parity.py` (SMEM parity
validator): the traffic-log parser, the two config-text mutators, and the
strict in-order parity comparator.  Python text is embedded over
`List Char`; fallible operations return `Option`/`Except`.
-/

set_option autoImplicit false

namespace SmemParity

/-- Python `\s` / `str.isspace` on the character range relevant to this log
and config format (ASCII plus the Latin-1 whitespace controls; wide Unicode
spaces are not modelled). -/
def pySpace (c : Char) : Bool :=
  c = ' ' || c = '\t' || c = '\n' || c = '\x0b' || c = '\x0c' || c = '\x0d' ||
  c = '\x1c' || c = '\x1d' || c = '\x1e' || c = '\x1f' || c = '\x85' || c = '\xa0'

/-- The line-boundary characters of Python `str.splitlines`. -/
def isLineBreak (c : Char) : Bool :=
  c = '\n' || c = '\x0d' || c = '\x0b' || c = '\x0c' ||
  c = '\x1c' || c = '\x1d' || c = '\x1e' || c = '\x85' || c = '\u2028' || c = '\u2029'

/-- Worker for `pySplitlines`: `acc` holds the current line, reversed.
`"\r\n"` counts as a single boundary; a boundary ending the input does not
open a new line. -/
def splitGo : List Char → List Char → List (List Char)
  | [], acc => [acc.reverse]
  | [c], acc => if isLineBreak c then [acc.reverse] else [(c :: acc).reverse]
  | c :: c2 :: rest, acc =>
    if c = '\x0d' && c2 = '\n' then
      acc.reverse :: (match rest with | [] => [] | _ :: _ => splitGo rest [])
    else if isLineBreak c then
      acc.reverse :: splitGo (c2 :: rest) []
    else splitGo (c2 :: rest) (c :: acc)

/-- Python `str.splitlines`. -/
def pySplitlines : List Char → List (List Char)
  | [] => []
  | c :: rest => splitGo (c :: rest) []

/-- Python `str.strip()`: remove leading and trailing whitespace. -/
def pyStrip (l : List Char) : List Char :=
  ((l.dropWhile pySpace).reverse.dropWhile pySpace).reverse

/-- The decimal digit character for `d < 10`. -/
def digitChar (d : Nat) : Char := Char.ofNat (48 + d)

/-- Worker for `natStr`; the first argument is fuel (one unit per emitted
digit, `n + 1` always suffices). -/
def natStrAux : Nat → Nat → List Char → List Char
  | 0, _, acc => acc
  | fuel + 1, n, acc =>
    if n < 10 then digitChar n :: acc
    else natStrAux fuel (n / 10) (digitChar (n % 10) :: acc)

/-- Python `str` of a nonnegative integer: decimal digits. -/
def natStr (n : Nat) : List Char := natStrAux (n + 1) n []

/-- Python `str` of an `int`. -/
def intStr (v : Int) : List Char :=
  if v < 0 then '-' :: natStr v.natAbs else natStr v.toNat

/-- `stripped.startswith("[") and stripped.endswith("]")`. -/
def isBracket (l : List Char) : Bool :=
  match l.head?, l.getLast? with
  | some a, some b => a = '[' && b = ']'
  | _, _ => false

def simHeader : List Char := "[sim]".toList

/-- The replacement/insertion text `f"timeout = {timeout_cycles}"`. -/
def timeoutLine (v : Int) : List Char := "timeout = ".toList ++ intStr v

/-- First pass of `override_sim_timeout` (lines 78-88): every line inside a
`[sim]` section whose stripped content starts with `timeout` is rewritten;
the second component is the `replaced` flag. -/
def pass1 (v : Int) : List (List Char) → Bool → List (List Char) × Bool
  | [], _ => ([], false)
  | l :: ls, in_sim =>
    let stripped := pyStrip l
    if isBracket stripped then
      let r := pass1 v ls (stripped = simHeader)
      (l :: r.1, r.2)
    else if in_sim && "timeout".toList.isPrefixOf stripped then
      let r := pass1 v ls in_sim
      (timeoutLine v :: r.1, true)
    else
      let r := pass1 v ls in_sim
      (l :: r.1, r.2)

/-- Second pass of `override_sim_timeout` (lines 90-107, run only when
nothing was replaced): insert a `timeout = v` line into the `[sim]`
section, before the next section header or at end of input. -/
def pass2 (v : Int) : List (List Char) → Bool → Bool → List (List Char)
  | [], in_sim, inserted => if in_sim && !inserted then [timeoutLine v] else []
  | l :: ls, in_sim, inserted =>
    let stripped := pyStrip l
    if stripped = simHeader then l :: pass2 v ls true inserted
    else if in_sim && isBracket stripped && !inserted then
      timeoutLine v :: l :: pass2 v ls false true
    else l :: pass2 v ls in_sim inserted

/-- `"\n".join(lines)`. -/
def joinNL : List (List Char) → List Char
  | [] => []
  | [l] => l
  | l :: ls => l ++ '\n' :: joinNL ls

/-- `text.endswith("\n")`. -/
def endsWithNL (s : List Char) : Bool := s.getLast? = some '\n'

/-- The line-level body of `override_sim_timeout`: the replacement pass,
then — only when nothing was replaced — the insertion pass. -/
def overrideLines (v : Int) (L : List (List Char)) : List (List Char) :=
  let p := pass1 v L false
  if p.2 then p.1 else pass2 v p.1 false false

/-- `override_sim_timeout` from `scripts/smem_parity.py` (lines 72-109). -/
def override_sim_timeout (base_text : List Char) (timeout_cycles : Int) : List Char :=
  joinNL (overrideLines timeout_cycles (pySplitlines base_text)) ++
    (if endsWithNL base_text then ['\n'] else [])

/-- Python substring containment `needle in hay`. -/
def containsSub (needle : List Char) : List Char → Bool
  | [] => needle.isEmpty
  | c :: rest => needle.isPrefixOf (c :: rest) || containsSub needle rest

def trafficHeader : List Char := "[traffic]".toList

/-- `append_traffic_file_to_config` (lines 59-69); the `RuntimeError` raise
is modelled as `none`. -/
def append_traffic_file_to_config (base_text traffic_file_rel : List Char) :
    Option (List Char) :=
  if containsSub trafficHeader base_text then none
  else
    let text := if endsWithNL base_text then base_text else base_text ++ ['\n']
    some (text ++ "\n[traffic]\n".toList ++ "file = \x22".toList ++
      traffic_file_rel ++ "\x22\n".toList)

/-- Python `\d` (ASCII range). -/
def pyDigit (c : Char) : Bool := '0' ≤ c && c ≤ '9'

/-- Consume an exact literal from the front of the input. -/
def dropLit : List Char → List Char → Option (List Char)
  | [], s => some s
  | _ :: _, [] => none
  | c :: cs, d :: ds => if c = d then dropLit cs ds else none

/-- Match `\s+finished at time\s+(\d+)\s*$` against the whole remaining
input, returning the digits of the `cycle` capture.  The greedy `\s+`/`\d+`
pieces cannot backtrack here: each is followed by a token its own character
class cannot begin. -/
def matchTail (t : List Char) : Option (List Char) :=
  if (t.takeWhile pySpace).isEmpty then none
  else
    match dropLit "finished at time".toList (t.dropWhile pySpace) with
    | none => none
    | some t2 =>
      if (t2.takeWhile pySpace).isEmpty then none
      else
        let t3 := t2.dropWhile pySpace
        let d := t3.takeWhile pyDigit
        if d.isEmpty then none
        else if (t3.dropWhile pyDigit).all pySpace then some d else none

/-- Match `(.+?)\s+finished at time\s+(\d+)\s*$`: the lazy `(?P<name>.+?)`
takes the shortest nonempty name (never across a newline) whose remainder
matches the tail. -/
def matchNameTail : List Char → Option (List Char × List Char)
  | [] => none
  | c :: rest =>
    if c = '\n' then none
    else
      match matchTail rest with
      | some cyc => some ([c], cyc)
      | none =>
        match matchNameTail rest with
        | some p => some (c :: p.1, p.2)
        | none => none

/-- The tail of the greedy `\s+` before the name capture: prefer consuming
further whitespace, fall back to starting the name earlier. -/
def sStarName : List Char → Option (List Char × List Char)
  | [] => matchNameTail []
  | c :: rest =>
    if pySpace c then
      match sStarName rest with
      | some p => some p
      | none => matchNameTail (c :: rest)
    else matchNameTail (c :: rest)

/-- Match `TRAFFIC_LINE_RE` anchored at the current position, returning the
`core`, `name` and `cycle` captures.  The leading greedy pieces
(`\s+core\s+(\d+)\s+`) are maximal-munch: each is followed by a token
outside its own character class, so backtracking cannot alter them. -/
def matchAt (s : List Char) : Option (List Char × List Char × List Char) :=
  match dropLit "[TRAFFIC]".toList s with
  | none => none
  | some s1 =>
    if (s1.takeWhile pySpace).isEmpty then none
    else
      match dropLit "core".toList (s1.dropWhile pySpace) with
      | none => none
      | some s2 =>
        if (s2.takeWhile pySpace).isEmpty then none
        else
          let s3 := s2.dropWhile pySpace
          let d := s3.takeWhile pyDigit
          if d.isEmpty then none
          else
            match s3.dropWhile pyDigit with
            | [] => none
            | c :: rest =>
              if pySpace c then
                match sStarName rest with
                | some p => some (d, p.1, p.2)
                | none => none
              else none

/-- `TRAFFIC_LINE_RE.search` (line 25): try the pattern at each start
position, left to right. -/
def reSearch : List Char → Option (List Char × List Char × List Char)
  | [] => matchAt []
  | s@(_ :: rest) =>
    match matchAt s with
    | some r => some r
    | none => reSearch rest

/-- The value of a digit string. -/
def digitsVal (l : List Char) : Nat := l.foldl (fun a c => a * 10 + (c.toNat - 48)) 0

/-- Python `int()` on the capture shapes it is applied to here: succeeds
exactly on nonempty all-digit input. -/
def pyInt (l : List Char) : Option Nat :=
  if l ≠ [] ∧ l.all pyDigit then some (digitsVal l) else none

structure TrafficLine where
  pattern_name : List Char
  cycle : Nat
  deriving DecidableEq

/-- The loop body of `parse_traffic_lines` for one raw line: `none` is a
raised conversion error, `some none` a skipped line, `some (some tl)` an
appended row. -/
def parseStep (core : Int) (raw : List Char) : Option (Option TrafficLine) :=
  match reSearch raw with
  | none => some none
  | some (dCore, name, dCycle) =>
    match pyInt dCore with
    | none => none
    | some cv =>
      if (cv : Int) ≠ core then some none
      else
        match pyInt dCycle with
        | none => none
        | some cy => some (some ⟨pyStrip name, cy⟩)

/-- The line loop of `parse_traffic_lines` (lines 36-50). -/
def parseLines (core : Int) : List (List Char) → Option (List TrafficLine)
  | [] => some []
  | raw :: rest =>
    match parseStep core raw with
    | none => none
    | some none => parseLines core rest
    | some (some tl) => (parseLines core rest).map (tl :: ·)

/-- `parse_traffic_lines`, with the file contents passed as text; `none`
models an uncaught `ValueError` from `int()`. -/
def parse_traffic_lines (text : List Char) (core : Int) : Option (List TrafficLine) :=
  parseLines core (pySplitlines text)

/-- The event a single raw line contributes to the parser output. -/
def lineEvent (core : Int) (raw : List Char) : Option TrafficLine :=
  match reSearch raw with
  | none => none
  | some (dCore, name, dCycle) =>
    if (digitsVal dCore : Int) = core then some ⟨pyStrip name, digitsVal dCycle⟩
    else none

/-- `traffic_type` (lines 53-56). -/
def traffic_type (pattern_name : List Char) : List Char :=
  if '(' ∈ pattern_name then pattern_name.takeWhile (fun c => c ≠ '(')
  else if '_' ∈ pattern_name then
    ((pattern_name.reverse.dropWhile (fun c => c ≠ '_')).drop 1).reverse
  else pattern_name

inductive CompareError where
  | countMismatch (refLen candLen : Nat)
  | orderMismatch (idx : Nat) (refName candName : List Char)
  deriving DecidableEq

structure Row where
  idx : Nat
  ttype : List Char
  name : List Char
  refCycle : Nat
  candCycle : Nat
  signedErr : Int
  accumAbs : Nat
  accumTypeAbs : Nat
  deriving DecidableEq

/-- `defaultdict(int)` lookup. -/
def getD : List (List Char × Nat) → List Char → Nat
  | [], _ => 0
  | p :: rest, k => if p.1 = k then p.2 else getD rest k

/-- `defaultdict(int)` update. -/
def setD : List (List Char × Nat) → List Char → Nat → List (List Char × Nat)
  | [], k, n => [(k, n)]
  | p :: rest, k, n => if p.1 = k then (k, n) :: rest else p :: setD rest k n

/-- The comparison loop of `main` (lines 230-247): walk `zip ref cand` in
lockstep, accumulating global and per-category absolute error; the
`SystemExit` on an order mismatch is modelled as `Except.error`. -/
def compareGo (idx accumAbs : Nat) (byType : List (List Char × Nat)) :
    List TrafficLine → List TrafficLine → Except CompareError (List Row)
  | r :: rs, c :: cs =>
    if r.pattern_name ≠ c.pattern_name then
      .error (.orderMismatch idx r.pattern_name c.pattern_name)
    else
      let err : Int := (c.cycle : Int) - (r.cycle : Int)
      let absErr := err.natAbs
      let acc := accumAbs + absErr
      let t := traffic_type r.pattern_name
      let tAcc := getD byType t + absErr
      (compareGo (idx + 1) acc (setD byType t tAcc) rs cs).map
        (fun rows => ⟨idx, t, r.pattern_name, r.cycle, c.cycle, err, acc, tAcc⟩ :: rows)
  | _, _ => .ok []

/-- The parity-comparison stage of `main` (lines 219-247): the length check,
then the lockstep walk. -/
def compare (ref cand : List TrafficLine) : Except CompareError (List Row) :=
  if ref.length ≠ cand.length then .error (.countMismatch ref.length cand.length)
  else compareGo 0 0 [] ref cand

/-! ### Generic list helpers -/

theorem takeWhile_middle {p : Char → Bool} (a b : List Char) (c : Char)
    (ha : ∀ x ∈ a, p x = true) (hc : p c = false) :
    (a ++ c :: b).takeWhile p = a := by
  induction a with
  | nil => simp [List.takeWhile_cons, hc]
  | cons x xs ih =>
    have hx : p x = true := ha x (List.mem_cons_self x xs)
    simp only [List.cons_append, List.takeWhile_cons, hx, if_pos]
    exact congrArg (x :: ·) (ih fun y hy => ha y (List.mem_cons_of_mem x hy))

theorem dropWhile_middle {p : Char → Bool} (a b : List Char) (c : Char)
    (ha : ∀ x ∈ a, p x = true) (hc : p c = false) :
    (a ++ c :: b).dropWhile p = c :: b := by
  induction a with
  | nil => simp [List.dropWhile_cons, hc]
  | cons x xs ih =>
    have hx : p x = true := ha x (List.mem_cons_self x xs)
    simp only [List.cons_append, List.dropWhile_cons, hx, if_pos]
    exact ih fun y hy => ha y (List.mem_cons_of_mem x hy)

theorem containsSub_iff (needle hay : List Char) :
    containsSub needle hay = true ↔ ∃ u v, hay = u ++ needle ++ v := by
  induction hay with
  | nil =>
    simp only [containsSub, List.isEmpty_iff]
    constructor
    · rintro rfl
      exact ⟨[], [], rfl⟩
    · rintro ⟨u, v, huv⟩
      rcases List.append_eq_nil.mp (List.append_eq_nil.mp huv.symm).1 with ⟨-, h2⟩
      exact h2
  | cons c rest ih =>
    simp only [containsSub, Bool.or_eq_true, ih]
    constructor
    · rintro (hpre | ⟨u, v, rfl⟩)
      · rcases List.isPrefixOf_iff_prefix.mp hpre with ⟨t, ht⟩
        exact ⟨[], t, by simp [ht]⟩
      · exact ⟨c :: u, v, by simp⟩
    · rintro ⟨u, v, h⟩
      cases u with
      | nil =>
        exact Or.inl (List.isPrefixOf_iff_prefix.mpr ⟨v, by simpa using h.symm⟩)
      | cons x u =>
        rcases List.cons_eq_cons.mp h with ⟨-, h2⟩
        exact Or.inr ⟨u, v, h2⟩

/-! ### C8: category derivation -/

/-- C8: the derived category is the prefix before the first `(` when an open
parenthesis is present, and otherwise the prefix before the last
underscore-delimited suffix; events therefore share a category exactly when
these prefixes agree. -/
theorem traffic_type_category (a b : List Char) :
    ('(' ∉ a → traffic_type (a ++ '(' :: b) = a) ∧
    ('(' ∉ a → '(' ∉ b → '_' ∉ b → traffic_type (a ++ '_' :: b) = a) := by
  constructor
  · intro ha
    have hmem : '(' ∈ a ++ '(' :: b := by simp
    rw [traffic_type, if_pos hmem]
    refine takeWhile_middle a b '(' (fun x hx => ?_) (by simp)
    simp only [decide_eq_true_eq]
    exact fun h => ha (h ▸ hx)
  · intro ha hb hub
    have hnp : '(' ∉ a ++ '_' :: b := by
      simp only [List.mem_append, List.mem_cons]
      rintro (h | h | h)
      · exact ha h
      · exact absurd h.symm (by decide)
      · exact hb h
    have hmem : '_' ∈ a ++ '_' :: b := by simp
    rw [traffic_type, if_neg hnp, if_pos hmem]
    have hrev : (a ++ '_' :: b).reverse = b.reverse ++ '_' :: a.reverse := by
      simp
    rw [hrev, dropWhile_middle b.reverse a.reverse '_'
      (fun x hx => by
        simp only [decide_eq_true_eq]
        exact fun h => hub (h ▸ (List.mem_reverse.mp hx))) (by simp)]
    simp

/-- C8 witness: concrete category derivations through both branches. -/
theorem traffic_type_category_witness :
    traffic_type "read_burst(4)".toList = "read_burst".toList ∧
    traffic_type "write_scatter_7".toList = "write_scatter".toList :=
  ⟨(traffic_type_category "read_burst".toList "4)".toList).1 (by decide),
    (traffic_type_category "write_scatter".toList "7".toList).2
      (by decide) (by decide) (by decide)⟩

/-! ### C4 / C2: section append -/

/-- C4: `append_traffic_file_to_config` fails exactly when the literal header
`[traffic]` occurs anywhere in the document text, and after a successful
append any further append on the result fails (no silent overwrite). -/
theorem append_fails_iff_duplicate (base file : List Char) :
    (append_traffic_file_to_config base file = none ↔
      ∃ u v, base = u ++ trafficHeader ++ v) ∧
    (∀ out file2, append_traffic_file_to_config base file = some out →
      append_traffic_file_to_config out file2 = none) := by
  by_cases h : containsSub trafficHeader base = true
  · refine ⟨⟨fun _ => (containsSub_iff _ _).mp h, fun _ => ?_⟩, fun out file2 hout => ?_⟩
    · simp [append_traffic_file_to_config, h]
    · simp [append_traffic_file_to_config, h] at hout
  · have h' : containsSub trafficHeader base = false := by
      simpa using h
    constructor
    · simp only [append_traffic_file_to_config, h', Bool.false_eq_true, if_false]
      constructor
      · intro hsome
        exact absurd hsome (by simp)
      · intro hex
        exact absurd ((containsSub_iff _ _).mpr hex) h
    · intro out file2 hout
      simp only [append_traffic_file_to_config, h', Bool.false_eq_true, if_false,
        Option.some.injEq] at hout
      have hocc : containsSub trafficHeader out = true := by
        refine (containsSub_iff _ _).mpr
          ⟨(if endsWithNL base then base else base ++ ['\n']) ++ ['\n'],
            '\n' :: ("file = \x22".toList ++ file ++ "\x22\n".toList), ?_⟩
        rw [← hout]
        simp [trafficHeader]
      simp [append_traffic_file_to_config, hocc]

/-- C4 witness: a concrete append succeeds, and repeating it fails. -/
theorem append_fails_iff_duplicate_witness :
    append_traffic_file_to_config
      ("x = 1\n\n[traffic]\nfile = \x22f\x22\n".toList) "g".toList = none :=
  (append_fails_iff_duplicate "x = 1".toList "f".toList).2
    "x = 1\n\n[traffic]\nfile = \x22f\x22\n".toList "g".toList (by decide)

/-- C2 counterexample: on a document already ending in two newlines the
append keeps both (three `\n` in a row before `[traffic]`), while ensuring
"exactly one" trailing newline would have produced only two. -/
theorem append_not_exactly_one_newline :
    append_traffic_file_to_config "a\n\n".toList "f".toList =
      some "a\n\n\n[traffic]\nfile = \x22f\x22\n".toList ∧
    append_traffic_file_to_config "a\n\n".toList "f".toList ≠
      some "a\n\n[traffic]\nfile = \x22f\x22\n".toList := by
  constructor
  · rfl
  · decide

/-- C2 (amended): when the header is absent, the append returns the
document — with a newline appended only when it did not already end in one,
existing trailing newlines being kept — followed by a blank line, the
`[traffic]` header line, and the quoted `file` key line, each terminated by
a newline. -/
theorem append_builds_section (base file : List Char)
    (h : containsSub trafficHeader base = false) :
    append_traffic_file_to_config base file =
      some ((if endsWithNL base then base else base ++ ['\n']) ++
        '\n' :: (trafficHeader ++ '\n' ::
          ("file = \x22".toList ++ file ++ '\x22' :: ['\n']))) := by
  simp only [append_traffic_file_to_config, h, Bool.false_eq_true, if_false,
    Option.some.injEq]
  simp [trafficHeader]

/-- C2 witness: the amended shape at a concrete document and path. -/
theorem append_builds_section_witness :
    append_traffic_file_to_config "a".toList "f".toList =
      some ((if endsWithNL "a".toList then "a".toList else "a".toList ++ ['\n']) ++
        '\n' :: (trafficHeader ++ '\n' ::
          ("file = \x22".toList ++ "f".toList ++ '\x22' :: ['\n']))) :=
  append_builds_section "a".toList "f".toList (by decide)

/-! ### C9: concrete comparison scenario -/

/-- C9: on the two-event reference/candidate scenario the comparator
produces row 0 with signed error `+5`, running absolute error `5` and
`read_burst` accumulator `5`, and row 1 with signed error `-10`, running
absolute error `15` and `write_burst` accumulator `10`. -/
theorem compare_scenario :
    compare [⟨"read_burst(4)".toList, 100⟩, ⟨"write_burst(2)".toList, 250⟩]
        [⟨"read_burst(4)".toList, 105⟩, ⟨"write_burst(2)".toList, 240⟩] =
      .ok [⟨0, "read_burst".toList, "read_burst(4)".toList, 100, 105, 5, 5, 5⟩,
        ⟨1, "write_burst".toList, "write_burst(2)".toList, 250, 240, -10, 15, 10⟩] := by
  rfl

/-! ### C3: error classification of the comparator -/

theorem except_map_error_iff {a b : Type} (f : a → b) (x : Except CompareError a)
    (err : CompareError) : x.map f = .error err ↔ x = .error err := by
  cases x <;> simp [Except.map]

theorem compareGo_ne_count (rs : List TrafficLine) :
    ∀ (cs : List TrafficLine) (idx acc : Nat) (bt : List (List Char × Nat))
      (m n : Nat), compareGo idx acc bt rs cs ≠ .error (.countMismatch m n) := by
  induction rs with
  | nil => intro cs idx acc bt m n; cases cs <;> simp [compareGo]
  | cons r rs ih =>
    intro cs idx acc bt m n
    cases cs with
    | nil => simp [compareGo]
    | cons c cs =>
      by_cases h : r.pattern_name = c.pattern_name
      · simp only [compareGo]
        rw [if_neg (not_not_intro h), ne_eq, except_map_error_iff]
        exact ih cs _ _ _ m n
      · simp [compareGo, h]

theorem compareGo_order_iff (rs : List TrafficLine) :
    ∀ (cs : List TrafficLine) (idx acc : Nat) (bt : List (List Char × Nat)),
      (∃ i a b, compareGo idx acc bt rs cs = .error (.orderMismatch i a b)) ↔
      ∃ p ∈ rs.zip cs, p.1.pattern_name ≠ p.2.pattern_name := by
  induction rs with
  | nil => intro cs idx acc bt; cases cs <;> simp [compareGo]
  | cons r rs ih =>
    intro cs idx acc bt
    cases cs with
    | nil => simp [compareGo]
    | cons c cs =>
      by_cases h : r.pattern_name = c.pattern_name
      · simp only [compareGo]
        rw [if_neg (not_not_intro h), List.zip_cons_cons]
        constructor
        · rintro ⟨i, a, b, hi⟩
          rw [except_map_error_iff] at hi
          rcases (ih cs _ _ _).mp ⟨i, a, b, hi⟩ with ⟨p, hp, hne⟩
          exact ⟨p, List.mem_cons_of_mem _ hp, hne⟩
        · rintro ⟨p, hp, hne⟩
          rcases List.mem_cons.mp hp with rfl | hp'
          · exact absurd h hne
          · rcases (ih cs (idx + 1) (acc + ((c.cycle : Int) - (r.cycle : Int)).natAbs)
                (setD bt (traffic_type r.pattern_name)
                  (getD bt (traffic_type r.pattern_name) +
                    ((c.cycle : Int) - (r.cycle : Int)).natAbs))).mpr
                ⟨p, hp', hne⟩ with ⟨i, a, b, hi⟩
            exact ⟨i, a, b, by rw [except_map_error_iff]; exact hi⟩
      · refine ⟨fun _ => ⟨(r, c), ?_, h⟩, fun _ => ?_⟩
        · rw [List.zip_cons_cons]; exact List.mem_cons_self _ _
        · exact ⟨idx, r.pattern_name, c.pattern_name, by
            simp only [compareGo]
            rw [if_pos h]⟩

/-- C3: the comparator reports a count mismatch exactly when the two
sequences have different lengths (in which case no pairwise comparison
happens and the lengths are reported), reports an order mismatch exactly
when the lengths agree and some position carries different pattern names,
and can never report both on one input. -/
theorem compare_error_classification (ref cand : List TrafficLine) :
    (ref.length ≠ cand.length →
      compare ref cand = .error (.countMismatch ref.length cand.length)) ∧
    ((∃ m n, compare ref cand = .error (.countMismatch m n)) ↔
      ref.length ≠ cand.length) ∧
    ((∃ i a b, compare ref cand = .error (.orderMismatch i a b)) ↔
      ref.length = cand.length ∧
        ∃ p ∈ ref.zip cand, p.1.pattern_name ≠ p.2.pattern_name) := by
  by_cases h : ref.length = cand.length
  · refine ⟨fun hne => absurd h hne, ⟨?_, fun hne => absurd h hne⟩, ?_⟩
    · rintro ⟨m, n, hmn⟩
      rw [compare, if_neg (by simp [h])] at hmn
      exact absurd hmn (compareGo_ne_count ref cand 0 0 [] m n)
    · rw [compare, if_neg (by simp [h])]
      rw [compareGo_order_iff ref cand 0 0 []]
      simp [h]
  · refine ⟨fun _ => by rw [compare, if_pos h], ⟨fun _ => h, fun _ => ?_⟩, ?_⟩
    · exact ⟨ref.length, cand.length, by rw [compare, if_pos h]⟩
    · rw [compare, if_pos h]
      simp [h]

/-- C3 witness: a concrete length mismatch is reported as a count mismatch
citing both lengths. -/
theorem compare_error_classification_witness :
    compare [⟨"p_1".toList, 3⟩] [] = .error (.countMismatch 1 0) :=
  (compare_error_classification [⟨"p_1".toList, 3⟩] []).1 (by decide)

/-! ### C7 / C10: the log parser -/

theorem matchTail_digits : ∀ {t cyc : List Char}, matchTail t = some cyc →
    cyc ≠ [] ∧ cyc.all pyDigit = true := by
  intro t cyc h
  unfold matchTail at h
  dsimp only at h
  split at h
  · exact absurd h (by simp)
  split at h
  · exact absurd h (by simp)
  split at h
  · exact absurd h (by simp)
  split at h
  · exact absurd h (by simp)
  rename_i hdne
  split at h
  · injection h with h
    subst h
    exact ⟨fun hnil => hdne (by simp [hnil]),
      List.all_eq_true.mpr fun c hc => List.mem_takeWhile_imp hc⟩
  · exact absurd h (by simp)

theorem matchNameTail_digits : ∀ {l : List Char} {p : List Char × List Char},
    matchNameTail l = some p → p.2 ≠ [] ∧ p.2.all pyDigit = true := by
  intro l
  induction l with
  | nil => intro p h; exact absurd h (by simp [matchNameTail])
  | cons c rest ih =>
    intro p h
    unfold matchNameTail at h
    split at h
    · exact absurd h (by simp)
    split at h
    · rename_i cyc hcyc
      injection h with h
      subst h
      exact matchTail_digits hcyc
    split at h
    · rename_i q hq
      injection h with h
      subst h
      have hx := ih hq
      exact hx
    · exact absurd h (by simp)

theorem sStarName_digits : ∀ {l : List Char} {p : List Char × List Char},
    sStarName l = some p → p.2 ≠ [] ∧ p.2.all pyDigit = true := by
  intro l
  induction l with
  | nil => intro p h; exact matchNameTail_digits (by simpa [sStarName] using h)
  | cons c rest ih =>
    intro p h
    unfold sStarName at h
    split at h
    · split at h
      · rename_i q hq
        injection h with h
        subst h
        have hx := ih hq
        exact hx
      · exact matchNameTail_digits h
    · exact matchNameTail_digits h

theorem matchAt_digits : ∀ {s : List Char} {r : List Char × List Char × List Char},
    matchAt s = some r →
    (r.1 ≠ [] ∧ r.1.all pyDigit = true) ∧ r.2.2 ≠ [] ∧ r.2.2.all pyDigit = true := by
  intro s r h
  unfold matchAt at h
  dsimp only at h
  split at h
  · exact absurd h (by simp)
  split at h
  · exact absurd h (by simp)
  split at h
  · exact absurd h (by simp)
  split at h
  · exact absurd h (by simp)
  split at h
  · exact absurd h (by simp)
  rename_i hdne
  split at h
  · exact absurd h (by simp)
  split at h
  · split at h
    · rename_i q hq
      injection h with h
      subst h
      have hq2 := sStarName_digits hq
      refine ⟨⟨?_, ?_⟩, hq2⟩
      · intro hnil
        dsimp only at hnil
        exact hdne (by simp [hnil])
      · dsimp only
        exact List.all_eq_true.mpr fun c hc => List.mem_takeWhile_imp hc
    · exact absurd h (by simp)
  · exact absurd h (by simp)

theorem reSearch_digits : ∀ {s : List Char} {r : List Char × List Char × List Char},
    reSearch s = some r →
    (r.1 ≠ [] ∧ r.1.all pyDigit = true) ∧ r.2.2 ≠ [] ∧ r.2.2.all pyDigit = true := by
  intro s
  induction s with
  | nil => intro r h; exact matchAt_digits (by simpa [reSearch] using h)
  | cons c rest ih =>
    intro r h
    unfold reSearch at h
    split at h
    · rename_i r' hr'
      injection h with h
      subst h
      exact matchAt_digits hr'
    · exact ih h

theorem parseStep_eq (core : Int) (raw : List Char) :
    parseStep core raw = some (lineEvent core raw) := by
  rcases hr : reSearch raw with _ | ⟨d, nm, cy⟩
  · simp [parseStep, lineEvent, hr]
  · obtain ⟨⟨hd1, hd2⟩, hc1, hc2⟩ := reSearch_digits hr
    have hpd : pyInt d = some (digitsVal d) := by simp [pyInt, hd1, hd2]
    have hpc : pyInt cy = some (digitsVal cy) := by simp [pyInt, hc1, hc2]
    by_cases hc : (digitsVal d : Int) = core
    · simp [parseStep, lineEvent, hr, hpd, hpc, hc]
    · simp [parseStep, lineEvent, hr, hpd, hpc, hc]

theorem parseLines_eq (core : Int) : ∀ lines : List (List Char),
    parseLines core lines = some (lines.filterMap (lineEvent core)) := by
  intro lines
  induction lines with
  | nil => simp [parseLines]
  | cons raw rest ih =>
    rcases hle : lineEvent core raw with _ | tl
    · simp [parseLines, parseStep_eq core raw, hle, ih]
    · simp [parseLines, parseStep_eq core raw, hle, ih]

/-- C7: the parser output is exactly the in-order `filterMap` of the input
lines through the per-line matcher restricted to the selected core id: no
reordering, no deduplication, non-matching lines and other-core lines
excluded. -/
theorem parser_output_is_ordered_exact_filter (text : List Char) (core : Int) :
    parse_traffic_lines text core =
      some ((pySplitlines text).filterMap (lineEvent core)) := by
  unfold parse_traffic_lines
  exact parseLines_eq core (pySplitlines text)

/-- C10: the structural pattern captures only digit strings for the core and
cycle fields, so `int()` conversion always succeeds on a matched line and
the parser is total — the malformed-log error case is unreachable. -/
theorem parser_total_no_malformed :
    (∀ raw d nm cy, reSearch raw = some (d, nm, cy) →
      (pyInt d).isSome = true ∧ (pyInt cy).isSome = true) ∧
    (∀ text core, (parse_traffic_lines text core).isSome = true) := by
  constructor
  · intro raw d nm cy hr
    obtain ⟨⟨hd1, hd2⟩, hc1, hc2⟩ := reSearch_digits hr
    exact ⟨by simp [pyInt, hd1, hd2], by simp [pyInt, hc1, hc2]⟩
  · intro text core
    rw [parse_traffic_lines, parseLines_eq]
    rfl

/-- C10 witness: the captures of a concrete matched line convert. -/
theorem parser_total_no_malformed_witness :
    (pyInt "0".toList).isSome = true ∧ (pyInt "1523".toList).isSome = true :=
  parser_total_no_malformed.1
    "[TRAFFIC] core 0 read_burst(4) finished at time 1523".toList
    "0".toList "read_burst(4)".toList "1523".toList (by decide)

/-! ### C1 / C5 / C6: the timeout override.  Character-class facts. -/

theorem mem_of_getLast? : ∀ {α : Type} {l : List α} {x : α}, l.getLast? = some x → x ∈ l := by
  intro α
  intro l
  induction l with
  | nil => intro x h; exact absurd h (by simp)
  | cons a l ih =>
    intro x h
    cases l with
    | nil =>
      rw [List.getLast?_singleton] at h
      injection h with h
      subst h
      exact List.mem_cons_self _ _
    | cons b l =>
      refine List.mem_cons_of_mem _ (ih ?_)
      rw [List.getLast?_cons_cons] at h
      exact h

theorem pyStrip_eq_self {l : List Char}
    (h1 : ∀ c, l.head? = some c → pySpace c = false)
    (h2 : ∀ c, l.getLast? = some c → pySpace c = false) : pyStrip l = l := by
  have step1 : l.dropWhile pySpace = l := by
    cases l with
    | nil => rfl
    | cons a l => rw [List.dropWhile_cons, if_neg (by simp [h1 a rfl])]
  have step2 : l.reverse.dropWhile pySpace = l.reverse := by
    cases hr : l.reverse with
    | nil => rfl
    | cons a r =>
      rw [List.dropWhile_cons, if_neg ?_]
      have : l.getLast? = some a := by rw [← List.head?_reverse, hr]; rfl
      simp [h2 a this]
  rw [pyStrip, step1, step2, List.reverse_reverse]

theorem natStrAux_mem : ∀ (fuel n : Nat) (acc : List Char) (c : Char),
    c ∈ natStrAux fuel n acc → c ∈ acc ∨ ∃ d, d < 10 ∧ c = digitChar d := by
  intro fuel
  induction fuel with
  | zero => intro n acc c h; exact Or.inl h
  | succ fuel ih =>
    intro n acc c h
    rw [natStrAux] at h
    split at h
    · rcases List.mem_cons.mp h with rfl | h
      · exact Or.inr ⟨n, by omega, rfl⟩
      · exact Or.inl h
    · rcases ih (n / 10) (digitChar (n % 10) :: acc) c h with h | h
      · rcases List.mem_cons.mp h with rfl | h
        · exact Or.inr ⟨n % 10, Nat.mod_lt n (by omega), rfl⟩
        · exact Or.inl h
      · exact Or.inr h

theorem digitChar_plain : ∀ d, d < 10 →
    pySpace (digitChar d) = false ∧ isLineBreak (digitChar d) = false ∧
    digitChar d ≠ '[' ∧ digitChar d ≠ ']' := by decide

theorem intStr_chars (v : Int) (c : Char) (h : c ∈ intStr v) :
    pySpace c = false ∧ isLineBreak c = false ∧ c ≠ '[' ∧ c ≠ ']' := by
  have base : ∀ n, c ∈ natStr n →
      pySpace c = false ∧ isLineBreak c = false ∧ c ≠ '[' ∧ c ≠ ']' := by
    intro n hn
    rw [natStr] at hn
    rcases natStrAux_mem (n + 1) n [] c hn with h' | ⟨d, hd, hc⟩
    · exact absurd h' (List.not_mem_nil c)
    · subst hc
      exact digitChar_plain d hd
  rw [intStr] at h
  split at h
  · rcases List.mem_cons.mp h with rfl | h
    · exact ⟨by decide, by decide, by decide, by decide⟩
    · exact base _ h
  · exact base _ h

theorem natStrAux_eq_nil : ∀ (fuel n : Nat) (acc : List Char),
    natStrAux fuel n acc = [] → acc = [] := by
  intro fuel
  induction fuel with
  | zero => intro n acc h; exact h
  | succ fuel ih =>
    intro n acc h
    rw [natStrAux] at h
    split at h
    · exact absurd h (by simp)
    · exact absurd (ih (n / 10) (digitChar (n % 10) :: acc) h) (by simp)

theorem natStr_ne_nil (n : Nat) : natStr n ≠ [] := by
  intro h
  rw [natStr, natStrAux] at h
  split at h
  · exact absurd h (by simp)
  · exact absurd (natStrAux_eq_nil _ _ _ h) (by simp)

theorem intStr_ne_nil (v : Int) : intStr v ≠ [] := by
  rw [intStr]
  split
  · simp
  · exact natStr_ne_nil _

/-! Facts about the replacement line `timeout = v`. -/

theorem timeoutLine_head (v : Int) : (timeoutLine v).head? = some 't' := rfl

theorem timeoutLine_getLast_not_space (v : Int) :
    ∀ c, (timeoutLine v).getLast? = some c → pySpace c = false := by
  intro c h
  rw [timeoutLine, List.getLast?_append] at h
  rcases hg : (intStr v).getLast? with _ | x
  · exact absurd (List.getLast?_eq_none_iff.mp hg) (intStr_ne_nil v)
  · rw [hg] at h
    have h' : some x = some c := h
    injection h' with h'
    subst h'
    exact (intStr_chars v x (mem_of_getLast? hg)).1

theorem pyStrip_timeoutLine (v : Int) : pyStrip (timeoutLine v) = timeoutLine v := by
  refine pyStrip_eq_self (fun c h => ?_) (timeoutLine_getLast_not_space v)
  rw [timeoutLine_head] at h
  injection h with h2
  subst h2
  decide

theorem isBracket_timeoutLine (v : Int) : isBracket (timeoutLine v) = false := by
  unfold isBracket
  rw [timeoutLine_head]
  cases hg : (timeoutLine v).getLast? with
  | none => rfl
  | some b => simp

theorem timeoutLine_ne_simHeader (v : Int) : pyStrip (timeoutLine v) ≠ simHeader := by
  rw [pyStrip_timeoutLine]
  intro h
  have := congrArg List.head? h
  rw [timeoutLine_head] at this
  exact absurd this (by decide)

theorem timeout_prefix_timeoutLine (v : Int) :
    "timeout".toList.isPrefixOf (timeoutLine v) = true :=
  List.isPrefixOf_iff_prefix.mpr ⟨" = ".toList ++ intStr v, by
    rw [timeoutLine, ← List.append_assoc]; rfl⟩

theorem timeoutLine_breakfree (v : Int) : ∀ c ∈ timeoutLine v, isLineBreak c = false := by
  intro c hc
  rw [timeoutLine] at hc
  have hpre : ∀ x, x ∈ "timeout = ".toList → isLineBreak x = false := by decide
  rcases List.mem_append.mp hc with h | h
  · exact hpre c h
  · exact (intStr_chars v c h).2.1

/-! Unfolding equations for the two passes. -/

theorem pass1_bracket {l : List Char} (v : Int) (ls : List (List Char)) (sim : Bool)
    (h : isBracket (pyStrip l) = true) :
    pass1 v (l :: ls) sim =
      (l :: (pass1 v ls (pyStrip l = simHeader)).1,
        (pass1 v ls (pyStrip l = simHeader)).2) := by
  simp only [pass1, h, if_true]

theorem pass1_timeout {l : List Char} (v : Int) (ls : List (List Char)) (sim : Bool)
    (h1 : isBracket (pyStrip l) = false)
    (h2 : (sim && "timeout".toList.isPrefixOf (pyStrip l)) = true) :
    pass1 v (l :: ls) sim = (timeoutLine v :: (pass1 v ls sim).1, true) := by
  simp only [pass1, h1, h2, Bool.false_eq_true, if_false, if_true]

theorem pass1_other {l : List Char} (v : Int) (ls : List (List Char)) (sim : Bool)
    (h1 : isBracket (pyStrip l) = false)
    (h2 : (sim && "timeout".toList.isPrefixOf (pyStrip l)) = false) :
    pass1 v (l :: ls) sim = (l :: (pass1 v ls sim).1, (pass1 v ls sim).2) := by
  simp only [pass1, h1, h2, Bool.false_eq_true, if_false]

theorem pass2_sim {l : List Char} (v : Int) (ls : List (List Char)) (sim ins : Bool)
    (h : pyStrip l = simHeader) :
    pass2 v (l :: ls) sim ins = l :: pass2 v ls true ins := by
  simp only [pass2, h, if_true]

theorem pass2_insert {l : List Char} (v : Int) (ls : List (List Char)) (sim ins : Bool)
    (h1 : pyStrip l ≠ simHeader)
    (h2 : (sim && isBracket (pyStrip l) && !ins) = true) :
    pass2 v (l :: ls) sim ins = timeoutLine v :: l :: pass2 v ls false true := by
  simp only [pass2, h1, h2, if_false, if_true]

theorem pass2_other {l : List Char} (v : Int) (ls : List (List Char)) (sim ins : Bool)
    (h1 : pyStrip l ≠ simHeader)
    (h2 : (sim && isBracket (pyStrip l) && !ins) = false) :
    pass2 v (l :: ls) sim ins = l :: pass2 v ls sim ins := by
  simp only [pass2, h1, h2, Bool.false_eq_true, if_false]

theorem isBracket_simHeader : isBracket simHeader = true := by decide

/-- The `in_sim` flag of the first pass after processing the given lines. -/
def simAfter (L : List (List Char)) (sim : Bool) : Bool :=
  L.foldl (fun s l => if isBracket (pyStrip l) then (pyStrip l = simHeader) else s) sim

theorem simAfter_nil (sim : Bool) : simAfter [] sim = sim := rfl

theorem simAfter_cons (l : List Char) (L : List (List Char)) (sim : Bool) :
    simAfter (l :: L) sim =
      simAfter L (if isBracket (pyStrip l) then (pyStrip l = simHeader) else sim) := rfl

theorem pass1_false_id (v : Int) : ∀ (L : List (List Char)) (sim : Bool),
    (pass1 v L sim).2 = false → (pass1 v L sim).1 = L := by
  intro L
  induction L with
  | nil => intro sim _; rfl
  | cons l ls ih =>
    intro sim h
    by_cases hb : isBracket (pyStrip l) = true
    · rw [pass1_bracket v ls sim hb] at h ⊢
      exact congrArg (l :: ·) (ih _ h)
    · have hb' : isBracket (pyStrip l) = false := Bool.eq_false_iff.mpr hb
      by_cases ht : (sim && "timeout".toList.isPrefixOf (pyStrip l)) = true
      · rw [pass1_timeout v ls sim hb' ht] at h
        exact absurd h (by simp)
      · have ht' : (sim && "timeout".toList.isPrefixOf (pyStrip l)) = false :=
          Bool.eq_false_iff.mpr ht
        rw [pass1_other v ls sim hb' ht'] at h ⊢
        exact congrArg (l :: ·) (ih _ h)

theorem pass1_idem (v : Int) : ∀ (L : List (List Char)) (sim : Bool),
    pass1 v (pass1 v L sim).1 sim = pass1 v L sim := by
  intro L
  induction L with
  | nil => intro sim; rfl
  | cons l ls ih =>
    intro sim
    by_cases hb : isBracket (pyStrip l) = true
    · rw [pass1_bracket v ls sim hb, pass1_bracket v _ sim hb, ih]
    · have hb' : isBracket (pyStrip l) = false := Bool.eq_false_iff.mpr hb
      by_cases ht : (sim && "timeout".toList.isPrefixOf (pyStrip l)) = true
      · have hsim : sim = true := by
          cases sim
          · simp at ht
          · rfl
        rw [pass1_timeout v ls sim hb' ht,
          pass1_timeout v _ sim (by rw [pyStrip_timeoutLine]; exact isBracket_timeoutLine v)
            (by rw [pyStrip_timeoutLine, hsim, timeout_prefix_timeoutLine]; rfl),
          ih sim]
      · have ht' : (sim && "timeout".toList.isPrefixOf (pyStrip l)) = false :=
          Bool.eq_false_iff.mpr ht
        rw [pass1_other v ls sim hb' ht', pass1_other v _ sim hb' ht', ih sim]

theorem pass2_inserted_id (v : Int) : ∀ (L : List (List Char)) (sim : Bool),
    pass2 v L sim true = L := by
  intro L
  induction L with
  | nil => intro sim; simp [pass2]
  | cons l ls ih =>
    intro sim
    by_cases hs : pyStrip l = simHeader
    · rw [pass2_sim v ls sim true hs, ih]
    · rw [pass2_other v ls sim true hs (by simp), ih]

theorem pass2_nosim (v : Int) : ∀ (L : List (List Char)),
    (∀ l ∈ L, pyStrip l ≠ simHeader) → pass2 v L false false = L := by
  intro L
  induction L with
  | nil => intro _; simp [pass2]
  | cons l ls ih =>
    intro h
    rw [pass2_other v ls false false (h l (List.mem_cons_self l ls)) (by simp),
      ih fun x hx => h x (List.mem_cons_of_mem l hx)]

theorem pass1_nosim (v : Int) : ∀ (L : List (List Char)),
    (∀ l ∈ L, pyStrip l ≠ simHeader) → pass1 v L false = (L, false) := by
  intro L
  induction L with
  | nil => intro _; rfl
  | cons l ls ih =>
    intro h
    have hdec : (pyStrip l = simHeader : Bool) = false :=
      decide_eq_false (h l (List.mem_cons_self l ls))
    by_cases hb : isBracket (pyStrip l) = true
    · rw [pass1_bracket v ls false hb, hdec, ih fun x hx => h x (List.mem_cons_of_mem l hx)]
    · rw [pass1_other v ls false (Bool.eq_false_iff.mpr hb) (by simp),
        ih fun x hx => h x (List.mem_cons_of_mem l hx)]

theorem pass2_ins_fix (v : Int) : ∀ (L : List (List Char)) (sim : Bool),
    (pass1 v L sim).2 = false →
    (sim = true ∨ ∃ l ∈ L, pyStrip l = simHeader) →
    pass1 v (pass2 v L sim false) sim = (pass2 v L sim false, true) := by
  intro L
  induction L with
  | nil =>
    intro sim h1 h2
    have hsim : sim = true := by
      rcases h2 with h | ⟨l, hl, _⟩
      · exact h
      · exact absurd hl (List.not_mem_nil l)
    subst hsim
    rw [show pass2 v [] true false = [timeoutLine v] from rfl,
      pass1_timeout v [] true (by rw [pyStrip_timeoutLine]; exact isBracket_timeoutLine v)
        (by rw [pyStrip_timeoutLine, timeout_prefix_timeoutLine]; rfl)]
    rfl
  | cons l ls ih =>
    intro sim h1 h2
    by_cases hs : pyStrip l = simHeader
    · have hb : isBracket (pyStrip l) = true := by rw [hs]; exact isBracket_simHeader
      have hdec : (pyStrip l = simHeader : Bool) = true := decide_eq_true hs
      rw [pass1_bracket v ls sim hb, hdec] at h1
      rw [pass2_sim v ls sim false hs, pass1_bracket v _ sim hb, hdec,
        ih true h1 (Or.inl rfl)]
    · by_cases hb : isBracket (pyStrip l) = true
      · have hdec : (pyStrip l = simHeader : Bool) = false := decide_eq_false hs
        rw [pass1_bracket v ls sim hb, hdec] at h1
        cases sim with
        | true =>
          rw [pass2_insert v ls true false hs (by rw [hb]; rfl), pass2_inserted_id,
            pass1_timeout v _ true
              (by rw [pyStrip_timeoutLine]; exact isBracket_timeoutLine v)
              (by rw [pyStrip_timeoutLine, timeout_prefix_timeoutLine]; rfl),
            pass1_bracket v ls true hb, hdec, pass1_false_id v ls false h1]
        | false =>
          have h2' : (false = true ∨ ∃ x ∈ ls, pyStrip x = simHeader) := by
            rcases h2 with h | ⟨x, hx, hxs⟩
            · exact absurd h (by simp)
            · rcases List.mem_cons.mp hx with rfl | hx'
              · exact absurd hxs hs
              · exact Or.inr ⟨x, hx', hxs⟩
          rw [pass2_other v ls false false hs (by simp), pass1_bracket v _ false hb, hdec,
            ih false h1 h2']
      · have hb' : isBracket (pyStrip l) = false := Bool.eq_false_iff.mpr hb
        have ht' : (sim && "timeout".toList.isPrefixOf (pyStrip l)) = false := by
          by_cases ht : (sim && "timeout".toList.isPrefixOf (pyStrip l)) = true
          · rw [pass1_timeout v ls sim hb' ht] at h1
            exact absurd h1 (by simp)
          · exact Bool.eq_false_iff.mpr ht
        rw [pass1_other v ls sim hb' ht'] at h1
        have h2' : (sim = true ∨ ∃ x ∈ ls, pyStrip x = simHeader) := by
          rcases h2 with h | ⟨x, hx, hxs⟩
          · exact Or.inl h
          · rcases List.mem_cons.mp hx with rfl | hx'
            · exact absurd hxs hs
            · exact Or.inr ⟨x, hx', hxs⟩
        rw [pass2_other v ls sim false hs (by rw [hb']; simp),
          pass1_other v _ sim hb' ht', ih sim h1 h2']

theorem overrideLines_replaced {v : Int} {L : List (List Char)}
    (h : (pass1 v L false).2 = true) : overrideLines v L = (pass1 v L false).1 := by
  simp [overrideLines, h]

theorem overrideLines_not_replaced {v : Int} {L : List (List Char)}
    (h : (pass1 v L false).2 = false) : overrideLines v L = pass2 v L false false := by
  simp [overrideLines, h, pass1_false_id v L false h]

/-- Applying the line-level override twice gives the same lines as applying
it once. -/
theorem overrideLines_fix (v : Int) (L : List (List Char)) :
    overrideLines v (overrideLines v L) = overrideLines v L := by
  by_cases h : (pass1 v L false).2 = true
  · rw [overrideLines_replaced h,
      overrideLines_replaced (show (pass1 v (pass1 v L false).1 false).2 = true by
        rw [pass1_idem v L false]; exact h),
      pass1_idem v L false]
  · have h' : (pass1 v L false).2 = false := Bool.eq_false_iff.mpr h
    rw [overrideLines_not_replaced h']
    by_cases hsim : ∃ l ∈ L, pyStrip l = simHeader
    · have hfix := pass2_ins_fix v L false h' (Or.inr hsim)
      rw [overrideLines_replaced (show (pass1 v (pass2 v L false false) false).2 = true by
        rw [hfix]), hfix]
    · push_neg at hsim
      rw [pass2_nosim v L hsim, overrideLines_not_replaced h', pass2_nosim v L hsim]

theorem pass1_append (v : Int) : ∀ (A B : List (List Char)) (sim : Bool),
    pass1 v (A ++ B) sim =
      ((pass1 v A sim).1 ++ (pass1 v B (simAfter A sim)).1,
        ((pass1 v A sim).2 || (pass1 v B (simAfter A sim)).2)) := by
  intro A
  induction A with
  | nil => intro B sim; rfl
  | cons l A ih =>
    intro B sim
    rw [List.cons_append]
    by_cases hb : isBracket (pyStrip l) = true
    · rw [pass1_bracket v (A ++ B) sim hb, ih, pass1_bracket v A sim hb,
        simAfter_cons, if_pos hb]
      rfl
    · have hb' : isBracket (pyStrip l) = false := Bool.eq_false_iff.mpr hb
      by_cases ht : (sim && "timeout".toList.isPrefixOf (pyStrip l)) = true
      · rw [pass1_timeout v (A ++ B) sim hb' ht, ih, pass1_timeout v A sim hb' ht,
          simAfter_cons, if_neg hb]
        rfl
      · have ht' : (sim && "timeout".toList.isPrefixOf (pyStrip l)) = false :=
          Bool.eq_false_iff.mpr ht
        rw [pass1_other v (A ++ B) sim hb' ht', ih, pass1_other v A sim hb' ht',
          simAfter_cons, if_neg hb]
        rfl

theorem pass1_empty_line (v : Int) (sim : Bool) : pass1 v [[]] sim = ([[]], false) := by
  rw [pass1_other v [] sim (by decide) (by cases sim <;> decide)]
  rfl

theorem pass1_snoc_empty (v : Int) (init : List (List Char)) (sim : Bool) :
    pass1 v (init ++ [[]]) sim =
      ((pass1 v init sim).1 ++ [[]], (pass1 v init sim).2) := by
  rw [pass1_append v init [[]] sim, pass1_empty_line]
  simp

/-- Removing a final empty line from an override fixed point leaves a fixed
point. -/
theorem overrideLines_dropLast (v : Int) (L init : List (List Char))
    (hL : overrideLines v L = init ++ [[]]) : overrideLines v init = init := by
  by_cases h : (pass1 v L false).2 = true
  · rw [overrideLines_replaced h] at hL
    have hLfull : pass1 v L false = (init ++ [[]], true) := by
      rw [← hL, ← h]
    have hidem : pass1 v (init ++ [[]]) false = (init ++ [[]], true) := by
      rw [← hL, pass1_idem v L false, hLfull]
    have h2 : ((pass1 v init false).1 ++ [[]], (pass1 v init false).2) =
        (init ++ [[]], true) := by
      rw [← pass1_snoc_empty v init false, hidem]
    have hflag : (pass1 v init false).2 = true := congrArg Prod.snd h2
    have hlist : (pass1 v init false).1 = init :=
      List.append_cancel_right (congrArg Prod.fst h2)
    rw [overrideLines_replaced hflag, hlist]
  · have h' : (pass1 v L false).2 = false := Bool.eq_false_iff.mpr h
    rw [overrideLines_not_replaced h'] at hL
    by_cases hsim : ∃ l ∈ L, pyStrip l = simHeader
    · have hfix := pass2_ins_fix v L false h' (Or.inr hsim)
      rw [hL] at hfix
      have h2 : ((pass1 v init false).1 ++ [[]], (pass1 v init false).2) =
          (init ++ [[]], true) := by
        rw [← pass1_snoc_empty v init false, hfix]
      have hflag : (pass1 v init false).2 = true := congrArg Prod.snd h2
      have hlist : (pass1 v init false).1 = init :=
        List.append_cancel_right (congrArg Prod.fst h2)
      rw [overrideLines_replaced hflag, hlist]
    · push_neg at hsim
      rw [pass2_nosim v L hsim] at hL
      have hnos : ∀ l ∈ init, pyStrip l ≠ simHeader := fun l hl =>
        hsim l (by rw [hL]; exact List.mem_append_left _ hl)
      rw [overrideLines_not_replaced (by rw [pass1_nosim v init hnos]),
        pass2_nosim v init hnos]

/-! Splitlines / join infrastructure. -/

theorem splitGo_cons2 (c c2 : Char) (rest acc : List Char) :
    splitGo (c :: c2 :: rest) acc =
      if (c = '\x0d' && c2 = '\n') then
        acc.reverse :: (match rest with | [] => [] | _ :: _ => splitGo rest [])
      else if isLineBreak c then acc.reverse :: splitGo (c2 :: rest) []
      else splitGo (c2 :: rest) (c :: acc) := rfl

theorem splitGo_ne_nil : ∀ (s acc : List Char), splitGo s acc ≠ [] := by
  intro s acc
  induction s, acc using splitGo.induct with
  | case1 acc => simp [splitGo]
  | case2 c acc h => simp [splitGo, h]
  | case3 c acc h => simp [splitGo, h]
  | case4 c c2 rest acc h ih => rw [splitGo_cons2, if_pos h]; simp
  | case5 c c2 rest acc h1 h2 ih =>
    rw [splitGo_cons2, if_neg (by simpa using h1), if_pos h2]
    simp
  | case6 c c2 rest acc h1 h2 ih =>
    rw [splitGo_cons2, if_neg (by simpa using h1), if_neg h2]
    exact ih

theorem splitGo_free : ∀ (s acc : List Char),
    (∀ c ∈ acc, isLineBreak c = false) →
    ∀ l ∈ splitGo s acc, ∀ c ∈ l, isLineBreak c = false := by
  intro s acc
  induction s, acc using splitGo.induct with
  | case1 acc =>
    intro hacc l hl c hc
    rw [show splitGo [] acc = [acc.reverse] from rfl] at hl
    rcases List.mem_singleton.mp hl with rfl
    exact hacc c (List.mem_reverse.mp hc)
  | case2 c0 acc h =>
    intro hacc l hl c hc
    rw [show splitGo [c0] acc = [acc.reverse] from by simp [splitGo, h]] at hl
    rcases List.mem_singleton.mp hl with rfl
    exact hacc c (List.mem_reverse.mp hc)
  | case3 c0 acc h =>
    intro hacc l hl c hc
    rw [show splitGo [c0] acc = [(c0 :: acc).reverse] from by simp [splitGo, h]] at hl
    rcases List.mem_singleton.mp hl with rfl
    rcases List.mem_cons.mp (List.mem_reverse.mp hc) with rfl | hc'
    · exact Bool.eq_false_iff.mpr h
    · exact hacc c hc'
  | case4 c0 c2 rest acc h ih =>
    intro hacc l hl c hc
    rw [splitGo_cons2, if_pos h] at hl
    rcases List.mem_cons.mp hl with rfl | hl'
    · exact hacc c (List.mem_reverse.mp hc)
    · rcases rest with _ | ⟨z, w⟩
      · exact absurd hl' (List.not_mem_nil l)
      · exact ih (by simp) l hl' c hc
  | case5 c0 c2 rest acc h1 h2 ih =>
    intro hacc l hl c hc
    rw [splitGo_cons2, if_neg (by simpa using h1), if_pos h2] at hl
    rcases List.mem_cons.mp hl with rfl | hl'
    · exact hacc c (List.mem_reverse.mp hc)
    · exact ih (by simp) l hl' c hc
  | case6 c0 c2 rest acc h1 h2 ih =>
    intro hacc l hl c hc
    rw [splitGo_cons2, if_neg (by simpa using h1), if_neg h2] at hl
    refine ih ?_ l hl c hc
    intro x hx
    rcases List.mem_cons.mp hx with rfl | hx'
    · exact Bool.eq_false_iff.mpr h2
    · exact hacc x hx'

theorem pySplitlines_free (s : List Char) :
    ∀ l ∈ pySplitlines s, ∀ c ∈ l, isLineBreak c = false := by
  cases s with
  | nil => intro l hl; exact absurd hl (List.not_mem_nil l)
  | cons c rest =>
    exact splitGo_free (c :: rest) [] (fun x hx => absurd hx (List.not_mem_nil x))

theorem splitGo_append : ∀ (l s acc : List Char),
    (∀ c ∈ l, isLineBreak c = false) →
    splitGo (l ++ s) acc = splitGo s (l.reverse ++ acc) := by
  intro l
  induction l with
  | nil => intro s acc _; rfl
  | cons x l ih =>
    intro s acc h
    have hx : isLineBreak x = false := h x (List.mem_cons_self x l)
    have hxr : x ≠ '\x0d' := fun hr => by rw [hr] at hx; exact absurd hx (by decide)
    rcases hc : l ++ s with _ | ⟨z, w⟩
    · obtain ⟨rfl, rfl⟩ := List.append_eq_nil.mp hc
      rw [show ([x] ++ [] : List Char) = [x] from rfl,
        show splitGo [x] acc = [(x :: acc).reverse] from by simp [splitGo, hx]]
      simp [splitGo]
    · rw [List.cons_append, hc, splitGo_cons2, if_neg (by simp [hxr]),
        if_neg (by simp [hx]), ← hc,
        ih s (x :: acc) (fun y hy => h y (List.mem_cons_of_mem x hy))]
      simp

theorem joinNL_cons (m : List Char) (M : List (List Char)) (h : M ≠ []) :
    joinNL (m :: M) = m ++ '\n' :: joinNL M := by
  cases M with
  | nil => exact absurd rfl h
  | cons a M => rfl

theorem joinNL_snoc_empty : ∀ (A : List (List Char)), A ≠ [] →
    joinNL (A ++ [[]]) = joinNL A ++ ['\n'] := by
  intro A
  induction A with
  | nil => intro h; exact absurd rfl h
  | cons a A ih =>
    intro _
    cases A with
    | nil => rfl
    | cons b B =>
      rw [List.cons_append, joinNL_cons a ((b :: B) ++ [[]]) (by simp),
        joinNL_cons a (b :: B) (by simp), ih (by simp)]
      simp

theorem splitlines_join_newline : ∀ (M : List (List Char)), M ≠ [] →
    (∀ l ∈ M, ∀ c ∈ l, isLineBreak c = false) →
    pySplitlines (joinNL M ++ ['\n']) = M := by
  intro M
  induction M with
  | nil => intro h; exact absurd rfl h
  | cons m M ih =>
    intro _ hfree
    have hm : ∀ c ∈ m, isLineBreak c = false := hfree m (List.mem_cons_self m M)
    cases M with
    | nil =>
      have h1 : pySplitlines (m ++ ['\n']) = splitGo (m ++ ['\n']) [] := by
        cases m <;> rfl
      rw [show joinNL [m] = m from rfl, h1, splitGo_append m ['\n'] [] hm,
        show splitGo ['\n'] (m.reverse ++ []) = [(m.reverse ++ []).reverse] from by
          simp [splitGo, isLineBreak]]
      simp
    | cons b B =>
      have hBne : (b :: B) ≠ [] := by simp
      rw [joinNL_cons m (b :: B) hBne]
      simp only [List.append_assoc, List.cons_append]
      have h1 : pySplitlines (m ++ ('\n' :: (joinNL (b :: B) ++ ['\n']))) =
          splitGo (m ++ ('\n' :: (joinNL (b :: B) ++ ['\n']))) [] := by
        cases m <;> rfl
      rw [h1, splitGo_append m _ [] hm]
      rcases hz : joinNL (b :: B) ++ ['\n'] with _ | ⟨z, w⟩
      · exact absurd hz (by simp)
      · rw [splitGo_cons2, if_neg (by simp), if_pos (by decide), ← hz]
        have ihr := ih hBne (fun l hl => hfree l (List.mem_cons_of_mem m hl))
        have h2 : pySplitlines (joinNL (b :: B) ++ ['\n']) =
            splitGo (joinNL (b :: B) ++ ['\n']) [] := by
          rw [hz]; rfl
        rw [h2] at ihr
        rw [ihr]
        simp

theorem joinNL_ne_nil_of_two (a b : List Char) (B : List (List Char)) :
    joinNL (a :: b :: B) ≠ [] := by
  rw [joinNL_cons a (b :: B) (by simp)]
  simp

theorem splitlines_join_last_ne : ∀ (M : List (List Char)), M ≠ [] →
    (∀ l ∈ M, ∀ c ∈ l, isLineBreak c = false) →
    M.getLast? ≠ some [] →
    pySplitlines (joinNL M) = M := by
  intro M
  induction M with
  | nil => intro h; exact absurd rfl h
  | cons m M ih =>
    intro _ hfree hlast
    have hm := hfree m (List.mem_cons_self m M)
    cases M with
    | nil =>
      have hmne : m ≠ [] := fun h => hlast (by rw [List.getLast?_singleton, h])
      have h1 : pySplitlines m = splitGo m [] := by
        cases m with
        | nil => exact absurd rfl hmne
        | cons x xs => rfl
      rw [show joinNL [m] = m from rfl, h1,
        show splitGo m [] = splitGo (m ++ []) [] from by rw [List.append_nil],
        splitGo_append m [] [] hm]
      simp [splitGo]
    | cons b B =>
      rw [List.getLast?_cons_cons] at hlast
      have hjne : joinNL (b :: B) ≠ [] := by
        cases B with
        | nil =>
          have : b ≠ [] := fun h => hlast (by rw [List.getLast?_singleton, h])
          simpa [joinNL] using this
        | cons c C => exact joinNL_ne_nil_of_two b c C
      rw [joinNL_cons m (b :: B) (by simp)]
      rcases hz : joinNL (b :: B) with _ | ⟨z, w⟩
      · exact absurd hz hjne
      · have h1 : pySplitlines (m ++ '\n' :: z :: w) = splitGo (m ++ '\n' :: z :: w) [] := by
          cases m <;> rfl
        rw [h1, splitGo_append m ('\n' :: z :: w) [] hm, splitGo_cons2,
          if_neg (by simp), if_pos (by decide)]
        have ihr := ih (by simp) (fun l hl => hfree l (List.mem_cons_of_mem m hl)) hlast
        have h2 : pySplitlines (joinNL (b :: B)) = splitGo (z :: w) [] := by
          rw [hz]; rfl
        rw [h2] at ihr
        rw [ihr]
        simp

theorem joinNL_getLast : ∀ (M : List (List Char)) (m : List Char),
    M.getLast? = some m → m ≠ [] → (joinNL M).getLast? = m.getLast? := by
  intro M
  induction M with
  | nil => intro m h _; exact absurd h (by simp)
  | cons a M ih =>
    intro m h hm
    cases M with
    | nil =>
      rw [List.getLast?_singleton] at h
      injection h with h
      subst h
      rfl
    | cons b B =>
      rw [List.getLast?_cons_cons] at h
      have hIH := ih m h hm
      rw [joinNL_cons a (b :: B) (by simp),
        show (a ++ '\n' :: joinNL (b :: B)) = a ++ (['\n'] ++ joinNL (b :: B)) from rfl,
        List.getLast?_append, List.getLast?_append, hIH]
      rcases hy : m.getLast? with _ | y
      · exact absurd (List.getLast?_eq_none_iff.mp hy) hm
      · rfl

theorem pass1_mem (v : Int) : ∀ (L : List (List Char)) (sim : Bool) (x : List Char),
    x ∈ (pass1 v L sim).1 → x ∈ L ∨ x = timeoutLine v := by
  intro L
  induction L with
  | nil => intro sim x h; exact absurd h (List.not_mem_nil x)
  | cons l ls ih =>
    intro sim x h
    by_cases hb : isBracket (pyStrip l) = true
    · rw [pass1_bracket v ls sim hb] at h
      rcases List.mem_cons.mp h with rfl | h'
      · exact Or.inl (List.mem_cons_self _ _)
      · rcases ih _ x h' with h2 | h2
        · exact Or.inl (List.mem_cons_of_mem _ h2)
        · exact Or.inr h2
    · have hb' := Bool.eq_false_iff.mpr hb
      by_cases ht : (sim && "timeout".toList.isPrefixOf (pyStrip l)) = true
      · rw [pass1_timeout v ls sim hb' ht] at h
        rcases List.mem_cons.mp h with rfl | h'
        · exact Or.inr rfl
        · rcases ih _ x h' with h2 | h2
          · exact Or.inl (List.mem_cons_of_mem _ h2)
          · exact Or.inr h2
      · rw [pass1_other v ls sim hb' (Bool.eq_false_iff.mpr ht)] at h
        rcases List.mem_cons.mp h with rfl | h'
        · exact Or.inl (List.mem_cons_self _ _)
        · rcases ih _ x h' with h2 | h2
          · exact Or.inl (List.mem_cons_of_mem _ h2)
          · exact Or.inr h2

theorem pass2_mem (v : Int) : ∀ (L : List (List Char)) (sim ins : Bool) (x : List Char),
    x ∈ pass2 v L sim ins → x ∈ L ∨ x = timeoutLine v := by
  intro L
  induction L with
  | nil =>
    intro sim ins x h
    rw [pass2] at h
    split at h
    · rcases List.mem_singleton.mp h with rfl
      exact Or.inr rfl
    · exact absurd h (List.not_mem_nil x)
  | cons l ls ih =>
    intro sim ins x h
    by_cases hs : pyStrip l = simHeader
    · rw [pass2_sim v ls sim ins hs] at h
      rcases List.mem_cons.mp h with rfl | h'
      · exact Or.inl (List.mem_cons_self _ _)
      · rcases ih true ins x h' with h2 | h2
        · exact Or.inl (List.mem_cons_of_mem _ h2)
        · exact Or.inr h2
    · by_cases hcnd : (sim && isBracket (pyStrip l) && !ins) = true
      · rw [pass2_insert v ls sim ins hs hcnd] at h
        rcases List.mem_cons.mp h with rfl | h'
        · exact Or.inr rfl
        · rcases List.mem_cons.mp h' with rfl | h''
          · exact Or.inl (List.mem_cons_self _ _)
          · rcases ih false true x h'' with h2 | h2
            · exact Or.inl (List.mem_cons_of_mem _ h2)
            · exact Or.inr h2
      · rw [pass2_other v ls sim ins hs (Bool.eq_false_iff.mpr hcnd)] at h
        rcases List.mem_cons.mp h with rfl | h'
        · exact Or.inl (List.mem_cons_self _ _)
        · rcases ih sim ins x h' with h2 | h2
          · exact Or.inl (List.mem_cons_of_mem _ h2)
          · exact Or.inr h2

theorem overrideLines_mem (v : Int) (L : List (List Char)) (x : List Char)
    (h : x ∈ overrideLines v L) : x ∈ L ∨ x = timeoutLine v := by
  by_cases hf : (pass1 v L false).2 = true
  · rw [overrideLines_replaced hf] at h
    exact pass1_mem v L false x h
  · rw [overrideLines_not_replaced (Bool.eq_false_iff.mpr hf)] at h
    exact pass2_mem v L false false x h

theorem pass1_nil_of_nil (v : Int) : ∀ (L : List (List Char)) (sim : Bool),
    (pass1 v L sim).1 = [] → L = [] := by
  intro L sim h
  cases L with
  | nil => rfl
  | cons l ls =>
    by_cases hb : isBracket (pyStrip l) = true
    · rw [pass1_bracket v ls sim hb] at h
      exact absurd h (by simp)
    · have hb' := Bool.eq_false_iff.mpr hb
      by_cases ht : (sim && "timeout".toList.isPrefixOf (pyStrip l)) = true
      · rw [pass1_timeout v ls sim hb' ht] at h
        exact absurd h (by simp)
      · rw [pass1_other v ls sim hb' (Bool.eq_false_iff.mpr ht)] at h
        exact absurd h (by simp)

theorem pass2_nil_of_nil (v : Int) : ∀ (L : List (List Char)) (sim ins : Bool),
    pass2 v L sim ins = [] → L = [] := by
  intro L sim ins h
  cases L with
  | nil => rfl
  | cons l ls =>
    by_cases hs : pyStrip l = simHeader
    · rw [pass2_sim v ls sim ins hs] at h
      exact absurd h (by simp)
    · by_cases hcnd : (sim && isBracket (pyStrip l) && !ins) = true
      · rw [pass2_insert v ls sim ins hs hcnd] at h
        exact absurd h (by simp)
      · rw [pass2_other v ls sim ins hs (Bool.eq_false_iff.mpr hcnd)] at h
        exact absurd h (by simp)

theorem overrideLines_nil_of_nil (v : Int) (L : List (List Char))
    (h : overrideLines v L = []) : L = [] := by
  by_cases hf : (pass1 v L false).2 = true
  · rw [overrideLines_replaced hf] at h
    exact pass1_nil_of_nil v L false h
  · rw [overrideLines_not_replaced (Bool.eq_false_iff.mpr hf)] at h
    exact pass2_nil_of_nil v L false false h

theorem override_eq_of_ends (s : List Char) (v : Int) (h : endsWithNL s = true) :
    override_sim_timeout s v = joinNL (overrideLines v (pySplitlines s)) ++ ['\n'] := by
  simp only [override_sim_timeout, h, if_true]

theorem override_eq_of_not_ends (s : List Char) (v : Int) (h : endsWithNL s = false) :
    override_sim_timeout s v = joinNL (overrideLines v (pySplitlines s)) := by
  simp only [override_sim_timeout, h, Bool.false_eq_true, if_false, List.append_nil]

theorem endsWithNL_append_newline (X : List Char) : endsWithNL (X ++ ['\n']) = true := by
  simp [endsWithNL, List.getLast?_append]

theorem override_nil (v : Int) : override_sim_timeout [] v = [] := rfl

/-- C6: `override_sim_timeout` is idempotent — applying it twice with the
same timeout value yields the same document as applying it once. -/
theorem override_sim_timeout_idempotent (base_text : List Char) (v : Int) :
    override_sim_timeout (override_sim_timeout base_text v) v =
      override_sim_timeout base_text v := by
  rcases base_text with _ | ⟨c0, s0⟩
  · rfl
  · set out := overrideLines v (pySplitlines (c0 :: s0)) with hout
    have hne : out ≠ [] := by
      intro h
      have h0 := overrideLines_nil_of_nil v _ h
      exact splitGo_ne_nil (c0 :: s0) [] h0
    have hfree : ∀ l ∈ out, ∀ c ∈ l, isLineBreak c = false := by
      intro l hl
      rcases overrideLines_mem v _ l hl with h | rfl
      · exact pySplitlines_free _ l h
      · exact timeoutLine_breakfree v
    have hfix : overrideLines v out = out := overrideLines_fix v _
    by_cases hend : endsWithNL (c0 :: s0) = true
    · rw [override_eq_of_ends _ v hend,
        override_eq_of_ends _ v (endsWithNL_append_newline _),
        splitlines_join_newline out hne hfree, hfix]
    · have hend' : endsWithNL (c0 :: s0) = false := Bool.eq_false_iff.mpr hend
      rw [override_eq_of_not_ends _ v hend', ← hout]
      rcases hm : out.getLast? with _ | m
      · exact absurd (List.getLast?_eq_none_iff.mp hm) hne
      · by_cases hm0 : m = []
        · subst hm0
          have hsplit : out.dropLast ++ [[]] = out := by
            have h1 := List.dropLast_concat_getLast hne
            rw [List.getLast?_eq_getLast out hne] at hm
            injection hm with hm
            rw [← hm]
            exact h1
          have hfixinit : overrideLines v out.dropLast = out.dropLast :=
            overrideLines_dropLast v (pySplitlines (c0 :: s0)) out.dropLast
              (by rw [← hout, hsplit])
          rcases hinit : out.dropLast with _ | ⟨i0, irest⟩
          · have : out = [[]] := by rw [← hsplit, hinit]; rfl
            rw [this]
            rfl
          · have hne' : out.dropLast ≠ [] := by rw [hinit]; simp
            have hfree' : ∀ l ∈ out.dropLast, ∀ c ∈ l, isLineBreak c = false := by
              intro l hl
              exact hfree l (by rw [← hsplit]; exact List.mem_append_left _ hl)
            rw [← hsplit, joinNL_snoc_empty out.dropLast hne',
              override_eq_of_ends _ v (endsWithNL_append_newline _),
              splitlines_join_newline out.dropLast hne' hfree', hfixinit]
        · have hlast : out.getLast? ≠ some [] := by
            rw [hm]
            intro h
            injection h with h
            exact hm0 h
          have hy : endsWithNL (joinNL out) = false := by
            rw [endsWithNL, joinNL_getLast out m hm hm0]
            rcases hy2 : m.getLast? with _ | y
            · exact absurd (List.getLast?_eq_none_iff.mp hy2) hm0
            · have hmm := mem_of_getLast? hm
              have hmy := mem_of_getLast? hy2
              have hyb : isLineBreak y = false := hfree m hmm y hmy
              have : y ≠ '\n' := fun h => by rw [h] at hyb; exact absurd hyb (by decide)
              simp [this]
          rw [override_eq_of_not_ends _ v hy,
            splitlines_join_last_ne out hne hfree hlast, hfix]

/-- Joining the split lines reconstructs a document whose only line-break
character is `\n`. -/
theorem splitGo_join : ∀ (s acc : List Char),
    (∀ c ∈ s, isLineBreak c = true → c = '\n') →
    joinNL (splitGo s acc) ++ (if s.getLast? = some '\n' then ['\n'] else []) =
      acc.reverse ++ s := by
  intro s acc
  induction s, acc using splitGo.induct with
  | case1 acc => intro _; simp [splitGo, joinNL]
  | case2 c acc hbr =>
    intro h
    have hc : c = '\n' := h c (List.mem_cons_self c []) hbr
    subst hc
    rw [show splitGo ['\n'] acc = [acc.reverse] from by simp [splitGo, isLineBreak],
      List.getLast?_singleton, if_pos rfl]
    simp [joinNL]
  | case3 c acc hbr =>
    intro h
    have hcn : c ≠ '\n' := fun hc => hbr (by rw [hc]; decide)
    rw [show splitGo [c] acc = [(c :: acc).reverse] from by
        simp [splitGo, Bool.eq_false_iff.mpr hbr],
      List.getLast?_singleton, if_neg (by simp [hcn])]
    simp [joinNL]
  | case4 c c2 rest acc hcr ih =>
    intro h
    obtain ⟨hc, -⟩ : c = '\x0d' ∧ c2 = '\n' := by simpa using hcr
    exact absurd (h c (List.mem_cons_self _ _) (by rw [hc]; decide)) (by rw [hc]; decide)
  | case5 c c2 rest acc h1 h2 ih =>
    intro h
    have hc : c = '\n' := h c (List.mem_cons_self _ _) h2
    subst hc
    rw [splitGo_cons2, if_neg (by simp), if_pos h2]
    rcases hz : splitGo (c2 :: rest) [] with _ | ⟨z, w⟩
    · exact absurd hz (splitGo_ne_nil _ _)
    · rw [joinNL_cons acc.reverse (z :: w) (by simp), ← hz, List.getLast?_cons_cons]
      have ihr := ih fun x hx hbx => h x (List.mem_cons_of_mem _ hx) hbx
      simp only [List.reverse_nil, List.nil_append] at ihr
      simp only [List.append_assoc, List.cons_append, ihr]
  | case6 c c2 rest acc h1 h2 ih =>
    intro h
    rw [splitGo_cons2, if_neg (by simpa using h1), if_neg h2, List.getLast?_cons_cons]
    have ihr := ih fun x hx hbx => h x (List.mem_cons_of_mem _ hx) hbx
    rw [ihr]
    simp

theorem simAfter_nosim : ∀ (P : List (List Char)),
    (∀ l ∈ P, pyStrip l ≠ simHeader) → simAfter P false = false := by
  intro P
  induction P with
  | nil => intro _; rfl
  | cons l ls ih =>
    intro h
    rw [simAfter_cons,
      show (if isBracket (pyStrip l) then (pyStrip l = simHeader : Bool) else false) =
        false from by
        split
        · exact decide_eq_false (h l (List.mem_cons_self l ls))
        · rfl]
    exact ih fun x hx => h x (List.mem_cons_of_mem _ hx)

/-- C5 counterexample: a document with a `\x0d\n` line ending and no `[sim]`
section is rewritten (line endings normalised to `\n`), not returned
unchanged. -/
theorem override_absent_section_changes_crlf :
    override_sim_timeout "a\x0d\nb".toList 7 = "a\nb".toList ∧
    override_sim_timeout "a\x0d\nb".toList 7 ≠ "a\x0d\nb".toList := by
  constructor
  · decide
  · decide

/-- C5 (amended): on a document whose only line-break character is `\n` and
in which no line strips to the `[sim]` header, the override inserts nothing
and returns the document unchanged.  (On other line endings the document is
rewritten with `\n` separators, as the counterexample shows.) -/
theorem override_absent_section_unchanged (s : List Char) (v : Int)
    (honly : ∀ c ∈ s, isLineBreak c = true → c = '\n')
    (hns : ∀ l ∈ pySplitlines s, pyStrip l ≠ simHeader) :
    override_sim_timeout s v = s := by
  rcases s with _ | ⟨c0, s0⟩
  · exact override_nil v
  · have hlines : overrideLines v (pySplitlines (c0 :: s0)) = pySplitlines (c0 :: s0) := by
      rw [overrideLines_not_replaced (by rw [pass1_nosim v _ hns]),
        pass2_nosim v _ hns]
    rw [override_sim_timeout, hlines,
      show pySplitlines (c0 :: s0) = splitGo (c0 :: s0) [] from rfl]
    have hj := splitGo_join (c0 :: s0) [] honly
    simp only [List.reverse_nil, List.nil_append] at hj
    simp only [endsWithNL, decide_eq_true_eq]
    exact hj

/-- C5 witness: a concrete `\n`-only document without a `[sim]` section is
returned unchanged. -/
theorem override_absent_section_unchanged_witness :
    override_sim_timeout "a = 1\n[net]\nb = 2\n".toList 7 =
      "a = 1\n[net]\nb = 2\n".toList :=
  override_absent_section_unchanged "a = 1\n[net]\nb = 2\n".toList 7
    (by decide) (by decide)

theorem simAfter_nobracket : ∀ (P : List (List Char)) (sim : Bool),
    (∀ l ∈ P, isBracket (pyStrip l) = false) → simAfter P sim = sim := by
  intro P
  induction P with
  | nil => intro sim _; rfl
  | cons l ls ih =>
    intro sim h
    rw [simAfter_cons, if_neg (by rw [h l (List.mem_cons_self l ls)]; simp)]
    exact ih sim fun x hx => h x (List.mem_cons_of_mem _ hx)

theorem pass1_body (v : Int) : ∀ (body : List (List Char)),
    (∀ l ∈ body, isBracket (pyStrip l) = false) →
    pass1 v body true =
      (body.map fun l =>
        if "timeout".toList.isPrefixOf (pyStrip l) then timeoutLine v else l,
       body.any fun l => "timeout".toList.isPrefixOf (pyStrip l)) := by
  intro body
  induction body with
  | nil => intro _; rfl
  | cons l ls ih =>
    intro h
    have hb := h l (List.mem_cons_self l ls)
    by_cases ht : "timeout".toList.isPrefixOf (pyStrip l) = true
    · rw [pass1_timeout v ls true hb (by rw [ht]; rfl),
        ih fun x hx => h x (List.mem_cons_of_mem l hx)]
      simp only [List.map_cons, List.any_cons, ht, if_true, Bool.true_or]
    · have ht' := Bool.eq_false_iff.mpr ht
      rw [pass1_other v ls true hb (by rw [ht']; rfl),
        ih fun x hx => h x (List.mem_cons_of_mem l hx)]
      simp only [List.map_cons, List.any_cons, ht', Bool.false_eq_true, if_false,
        Bool.false_or]

theorem pass1_post (v : Int) : ∀ (post : List (List Char)),
    (∀ l ∈ post, pyStrip l ≠ simHeader) →
    (∀ lh, post.head? = some lh → isBracket (pyStrip lh) = true) →
    pass1 v post true = (post, false) := by
  intro post h1 h2
  cases post with
  | nil => rfl
  | cons lh tail =>
    rw [pass1_bracket v tail true (h2 lh rfl),
      decide_eq_false (h1 lh (List.mem_cons_self lh tail)),
      pass1_nosim v tail fun x hx => h1 x (List.mem_cons_of_mem _ hx)]

/-- C1 counterexample: with two `timeout` lines in the `[sim]` section both
are replaced; the claimed output, leaving the second line `timeout = 2`
unchanged, differs from the actual output. -/
theorem override_replaces_second_timeout_line :
    override_sim_timeout "[sim]\ntimeout = 1\ntimeout = 2\n".toList 5 =
      "[sim]\ntimeout = 5\ntimeout = 5\n".toList ∧
    override_sim_timeout "[sim]\ntimeout = 1\ntimeout = 2\n".toList 5 ≠
      "[sim]\ntimeout = 5\ntimeout = 2\n".toList := by
  constructor
  · decide
  · decide

/-- C1 (amended): while scanning inside the target `[sim]` section, every
line whose stripped content starts with `timeout` — not only the first — is
replaced in place by `timeout = v`; all other lines and the line order are
preserved. -/
theorem override_replaces_every_timeout_line (v : Int)
    (pre body post : List (List Char))
    (hpre : ∀ l ∈ pre, pyStrip l ≠ simHeader)
    (hbody : ∀ l ∈ body, isBracket (pyStrip l) = false)
    (hpost1 : ∀ l ∈ post, pyStrip l ≠ simHeader)
    (hpost2 : ∀ lh, post.head? = some lh → isBracket (pyStrip lh) = true)
    (hsome : ∃ l ∈ body, "timeout".toList.isPrefixOf (pyStrip l) = true)
    (hfree : ∀ l ∈ pre ++ simHeader :: (body ++ post), ∀ c ∈ l, isLineBreak c = false) :
    override_sim_timeout (joinNL (pre ++ simHeader :: (body ++ post)) ++ ['\n']) v =
      joinNL (pre ++ simHeader ::
        ((body.map fun l =>
          if "timeout".toList.isPrefixOf (pyStrip l) then timeoutLine v else l) ++
          post)) ++ ['\n'] := by
  have hany : (body.any fun l => "timeout".toList.isPrefixOf (pyStrip l)) = true := by
    rcases hsome with ⟨l, hl, hpl⟩
    exact List.any_eq_true.mpr ⟨l, hl, hpl⟩
  have hL : pySplitlines (joinNL (pre ++ simHeader :: (body ++ post)) ++ ['\n']) =
      pre ++ simHeader :: (body ++ post) :=
    splitlines_join_newline _ (by simp) hfree
  have hp1 : pass1 v (pre ++ simHeader :: (body ++ post)) false =
      (pre ++ simHeader ::
        ((body.map fun l =>
          if "timeout".toList.isPrefixOf (pyStrip l) then timeoutLine v else l) ++
          post), true) := by
    rw [pass1_append v pre _ false, pass1_nosim v pre hpre, simAfter_nosim pre hpre,
      pass1_bracket v _ false (by decide),
      (by decide : (pyStrip simHeader = simHeader : Bool) = true),
      pass1_append v body post true, pass1_body v body hbody,
      simAfter_nobracket body true hbody, pass1_post v post hpost1 hpost2, hany]
    simp
  rw [override_eq_of_ends _ v (endsWithNL_append_newline _), hL,
    overrideLines_replaced (show (pass1 v (pre ++ simHeader :: (body ++ post)) false).2 =
      true from by rw [hp1]), hp1]

/-- C1 witness: the amended replacement at a concrete one-line section. -/
theorem override_replaces_every_timeout_line_witness :
    override_sim_timeout
        (joinNL ([] ++ simHeader :: (["timeout = 1".toList] ++ [])) ++ ['\n']) 7 =
      joinNL ([] ++ simHeader ::
        ((["timeout = 1".toList].map fun l =>
          if "timeout".toList.isPrefixOf (pyStrip l) then timeoutLine 7 else l) ++
          [])) ++ ['\n'] :=
  override_replaces_every_timeout_line 7 [] ["timeout = 1".toList] []
    (by intro l hl; exact absurd hl (List.not_mem_nil l))
    (by decide)
    (by intro l hl; exact absurd hl (List.not_mem_nil l))
    (by intro lh h; exact absurd h (by simp))
    ⟨"timeout = 1".toList, List.mem_cons_self _ _, by decide⟩
    (by decide)

end SmemParity
